import Mathlib

/-!
Verification of the fuzz-complete enumeration engine.

This file gives a shallow embedding of the repository's generator core
(`src/generator/util.ts`, `src/generator/lowlevel.ts`), its grammar AST and
validator (`src/parser/ast.ts`), and the parse entry points
(`src/parser/parser.ts`), and proves or refutes the frozen claims about them.

Modelling conventions:
* A single-pass JavaScript iterator is modelled by its pure trace, either as a
  total stream `Nat → Option α` (`none` marks exhaustion) or as a computed
  finite approximation `PList α := List α × Bool` where the `Bool` is `true`
  exactly when the underlying iterator was observed to complete.
* Coroutine-style generators are modelled by a fuel-indexed interpreter that
  computes a finite prefix of the generated stream.  Whenever the prefix of an
  input stream is exhausted without the iterator being complete, every
  combinator aborts (returning what was emitted so far, flagged incomplete),
  so a computed prefix is always an exact prefix of the real output in the
  real emission order.
* Thrown exceptions are modelled with `Except`.
-/

namespace FuzzComplete

/-- Result of `BufferedIterable.get(i)`: a value, an observed end of stream, or
(only in the finite-approximation model) information not yet computed. -/
inductive GetRes (α : Type) where
  | val (a : α)
  | done
  | unknown
deriving Repr, DecidableEq

/-- A computed approximation of an iterator's trace: the list of values known
to be emitted first, and whether the iterator was observed to complete. -/
abbrev PList (α : Type) : Type := List α × Bool

/-- Source `BufferedIterable.get` over a computed approximation. -/
def pListGet (p : PList α) (i : Nat) : GetRes α :=
  if h : i < p.1.length then .val (p.1.get ⟨i, h⟩)
  else if p.2 then .done else .unknown

/-- Source `BufferedIterable.get` over a total stream `f` (the `i`-th value the
wrapped single-pass iterator yields, if any).  Memoization in the source is
semantically invisible because the iterator is pure. -/
def streamGet (f : Nat → Option α) (i : Nat) : GetRes α :=
  match f i with
  | some a => .val a
  | none => .done

/-- Inner sweep of the first phase of `everyCombination`:
`for (i = 0; i < stop; i++) { pull rights.get(i); break on done; yield [left, right] }`.
The returned `Bool` is `false` when the sweep ran into not-yet-computed data. -/
def ecSweepR (R : Nat → GetRes β) (left : α) : (i remaining : Nat) → List (α × β) × Bool
  | _, 0 => ([], true)
  | i, remaining + 1 =>
    match R i with
    | .done => ([], true)
    | .unknown => ([], false)
    | .val right =>
      let rest := ecSweepR R left (i + 1) remaining
      ((left, right) :: rest.1, rest.2)

/-- Inner sweep of the second phase of `everyCombination`:
`for (i = 0; i < stop; i++) { pull lefts.get(i); break on done; yield [left, right] }`. -/
def ecSweepL (L : Nat → GetRes α) (right : β) : (i remaining : Nat) → List (α × β) × Bool
  | _, 0 => ([], true)
  | i, remaining + 1 =>
    match L i with
    | .done => ([], true)
    | .unknown => ([], false)
    | .val left =>
      let rest := ecSweepL L right (i + 1) remaining
      ((left, right) :: rest.1, rest.2)

/-- First phase of one iteration of `everyCombination`'s loop: pull
`lefts.get(max)`; on a value, sweep the buffered rights below `max`.
Returns (emitted pairs, new `leftsDone` flag, no-unknown-was-hit flag). -/
def ecPhaseA (L : Nat → GetRes α) (R : Nat → GetRes β) (leftsDone : Bool) (m : Nat) :
    List (α × β) × Bool × Bool :=
  if leftsDone then ([], true, true)
  else
    match L m with
    | .unknown => ([], false, false)
    | .done => ([], true, true)
    | .val left =>
      let s := ecSweepR R left 0 m
      (s.1, false, s.2)

/-- Second phase of one iteration of `everyCombination`'s loop: pull
`rights.get(max)`; on a value, sweep the buffered lefts up to and
including `max`. -/
def ecPhaseB (L : Nat → GetRes α) (R : Nat → GetRes β) (rightsDone : Bool) (m : Nat) :
    List (α × β) × Bool × Bool :=
  if rightsDone then ([], true, true)
  else
    match R m with
    | .unknown => ([], false, false)
    | .done => ([], true, true)
    | .val right =>
      let s := ecSweepL L right 0 (m + 1)
      (s.1, false, s.2)

/-- The `while (true)` loop of `everyCombination`, with the frontier index `m`
and the two done flags as explicit state.  `fuel` bounds the number of loop
iterations that may be computed; running out of fuel marks the result
incomplete.  The second component is `true` exactly when the loop terminated
through its own `leftsDone && rightsDone` exit. -/
def ecLoop (L : Nat → GetRes α) (R : Nat → GetRes β)
    (leftsDone rightsDone : Bool) (m fuel : Nat) : List (α × β) × Bool :=
  match fuel with
  | 0 => ([], false)
  | fuel + 1 =>
    let a := ecPhaseA L R leftsDone m
    if a.2.2 = false then (a.1, false)
    else
      let b := ecPhaseB L R rightsDone m
      if b.2.2 = false then (a.1 ++ b.1, false)
      else if a.2.1 && b.2.1 then (a.1 ++ b.1, true)
      else
        let rest := ecLoop L R a.2.1 b.2.1 (m + 1) fuel
        (a.1 ++ b.1 ++ rest.1, rest.2)

/-- Source `everyCombination(rawLefts, rawRights)` over two single-pass streams,
computed up to `fuel` iterations of the diagonal loop. -/
def everyCombination (f : Nat → Option α) (g : Nat → Option β) (fuel : Nat) :
    List (α × β) × Bool :=
  ecLoop (streamGet f) (streamGet g) false false 0 fuel

/-- Source `everyCombination` applied to two computed stream approximations.  The
internal loop bound is large enough that the loop always exits through a done
flag or through missing data, never through the bound itself. -/
def ecP (l : PList α) (r : PList β) : PList (α × β) :=
  ecLoop (pListGet l) (pListGet r) false false 0 (max l.1.length r.1.length + 2)

/-- The stream of naturals starting at 1, as in the repository's tests. -/
def naturalsFromOne : Nat → Option Nat := fun n => some (n + 1)

/-- The finite three-element stream `a, b, c` from the repository's tests. -/
def abcStream : Nat → Option String := fun n => ["a", "b", "c"].get? n

/-- Source `everyCombinationMany(iterators)`: the empty list yields exactly `[]`, a
one-element list yields singletons, otherwise pair-interleave the head with
the recursive combination of the tail and prepend. -/
def everyCombinationMany : List (PList α) → PList (List α)
  | [] => ([[]], true)
  | [s] => (s.1.map (fun x => [x]), s.2)
  | s :: rest =>
    let inner := everyCombinationMany rest
    let p := ecP s inner
    (p.1.map (fun x => x.1 :: x.2), p.2)

/-- One cycle of `Choice.generate`'s round robin: pull the `c`-th value from
every still-live generator in order, removing those that report done.
Returns (values emitted this cycle, surviving streams, no-unknown flag). -/
def rrCycle (streams : List (PList α)) (c : Nat) : List α × List (PList α) × Bool :=
  match streams with
  | [] => ([], [], true)
  | s :: rest =>
    match pListGet s c with
    | .val a =>
      let r := rrCycle rest c
      (a :: r.1, s :: r.2.1, r.2.2)
    | .done => rrCycle rest c
    | .unknown => ([], [], false)

/-- The `while (iterators.size > 0)` loop of `Choice.generate`.  `bound`
bounds the number of computed cycles; the bound chosen by `roundRobin` is
large enough that the loop always exits through emptiness or missing data. -/
def rrLoop (streams : List (PList α)) (c bound : Nat) : List α × Bool :=
  match bound with
  | 0 => ([], false)
  | bound + 1 =>
    match streams with
    | [] => ([], true)
    | _ =>
      let cyc := rrCycle streams c
      if cyc.2.2 then
        let rest := rrLoop cyc.2.1 (c + 1) bound
        (cyc.1 ++ rest.1, rest.2)
      else (cyc.1, false)

/-- Round-robin interleaving of a list of generators (`Choice.generate` with
two or more alternatives). -/
def roundRobin (streams : List (PList α)) : PList α :=
  rrLoop streams 0 ((streams.map (fun s => s.1.length)).foldr max 0 + 2)

/-- Source `take(iter, num)` over a computed approximation: `some` of the first
`count` values (or all values if the iterator completes sooner); `none` when
the needed prefix has not been computed. -/
def pTake (p : PList α) (count : Nat) : Option (List α) :=
  if count ≤ p.1.length then some (p.1.take count)
  else if p.2 then some p.1 else none

/-- Source `everyLabellingHelper(numberOfChoices, count)`, fuel-indexed: each
recursive call on `count - 1` consumes one unit of fuel, so a `none` result at
every fuel witnesses divergence of the source generator.  Mirrors the source:
yield nothing when there are no choices; yield `[0]` when `count` is 1;
otherwise extend each smaller labelling by every admissible next index.
(For `count = 0` the JavaScript recursion decrements past every base case and
never terminates; `Nat` truncation at 0 reproduces the same non-termination,
visible here as `none` at every fuel.) -/
def everyLabellingHelperF (fuel numberOfChoices count : Nat) : Option (List (List Nat)) :=
  match fuel with
  | 0 => none
  | fuel + 1 =>
    if numberOfChoices = 0 then some []
    else if count = 1 then some [[0]]
    else
      match everyLabellingHelperF fuel numberOfChoices (count - 1) with
      | none => none
      | some smallerLabellings =>
        some (smallerLabellings.flatMap (fun subLabelling =>
          let maxInLabelling := subLabelling.foldl max 0
          let maxToCountTo := min (maxInLabelling + 1) (numberOfChoices - 1)
          (List.range (maxToCountTo + 1)).map (fun i => subLabelling ++ [i])))

/-- Source `everyLabelling(choices, count)`: map each numbered labelling through the
alphabet.  The fuel `count + 1` covers every terminating run of the source
recursion, so `none` occurs exactly where the source diverges.  Indices are
always in range; the `getD` default is unreachable. -/
def everyLabelling (choices : List String) (count : Nat) : Option (List (List String)) :=
  (everyLabellingHelperF (count + 1) choices.length count).map
    (fun ls => ls.map (fun numbered => numbered.map (fun n => choices.getD n "")))

/-! ### Grammar AST and validator (`src/parser/ast.ts`) -/

/-- The three postfix unary operators of the EBNF dialect. -/
inductive UnaryOp where
  | star
  | plus
  | question
deriving Repr, DecidableEq

/-- The grammar AST's `Production` union. -/
inductive Production where
  | literal (value : String)
  | rule (name : String) (offsetStart offsetEnd : Nat)
  | sequence (productions : List Production)
  | unaryOperator (operator : UnaryOp) (production : Production)
  | choice (choices : List Production)
deriving Repr

/-- A grammar rule: name, root production, `labeled` flag, name offsets. -/
structure Rule where
  name : String
  production : Production
  labeled : Bool
  nameStart : Nat
  nameEnd : Nat
deriving Repr

/-- A grammar: a name and an ordered list of rules. -/
structure Language where
  name : String
  rules : List Rule
deriving Repr

/-- A validation error: message and source offsets. -/
structure ValidationError where
  message : String
  startOffset : Nat
  endOffset : Nat
deriving Repr, DecidableEq

/-- The declared rule names, in declaration order. -/
def Language.ruleNames (g : Language) : List String := g.rules.map Rule.name

/-- Source `rulesByName.get(name)`: the JavaScript `Map` is populated by `set` in
declaration order, so a later rule with the same name overwrites an earlier
one — lookup returns the last match. -/
def Language.rulesByNameGet (g : Language) (name : String) : Option Rule :=
  g.rules.foldl (fun acc r => if r.name = name then some r else acc) none

/-- The duplicate-name scan of `Language.validate`: the first rule whose name
was already seen, if any. -/
def findDuplicate : List Rule → List String → Option Rule
  | [], _ => none
  | r :: rest, seen =>
    if r.name ∈ seen then some r else findDuplicate rest (r.name :: seen)

mutual

/-- Source `validateRuleReferences`: every `rule` production must name a declared
rule; throws "Rule not declared" at the reference's offsets otherwise. -/
def validateRuleReferences (ruleNames : List String) : Production → Except ValidationError Unit
  | .literal _ => .ok ()
  | .sequence ps => validateRuleReferencesList ruleNames ps
  | .rule n s e =>
    if n ∈ ruleNames then .ok () else .error ⟨"Rule not declared", s, e⟩
  | .unaryOperator _ p => validateRuleReferences ruleNames p
  | .choice cs => validateRuleReferencesList ruleNames cs

/-- The `for … of` loops inside `validateRuleReferences` over the children of
a sequence or choice; the first thrown error propagates. -/
def validateRuleReferencesList (ruleNames : List String) : List Production → Except ValidationError Unit
  | [] => .ok ()
  | p :: rest =>
    match validateRuleReferences ruleNames p with
    | .error e => .error e
    | .ok () => validateRuleReferencesList ruleNames rest

end

mutual

/-- Source `validateRuleTerminates`: depth-first traversal detecting a rule revisited
on the current path; throws "Infinite loop detected in leftmost choice" at the
offending rule's name.  The JavaScript `visited` set of rule objects is
modelled by the list of names on the path (rule objects passed here are the
grammar's own, keyed by name); `visited.add`/`visited.delete` bracketing the
recursive call is modelled by consing onto the path for the recursive call
only.  The source looks rules up with a non-null assertion and is only ever
invoked on declared rules, so the undeclared branch (which would crash the
source with a `TypeError` before detecting anything) is unreachable. -/
def validateRuleTerminates (g : Language) (r : Rule) (visited : List String) :
    Except ValidationError Unit :=
  if r.name ∈ visited then
    .error ⟨"Infinite loop detected in leftmost choice", r.nameStart, r.nameEnd⟩
  else if _h : r.name ∈ g.rules.map Rule.name then
    validateProductionTerminates g r.production (r.name :: visited)
  else
    .ok ()
termination_by (((g.rules.map Rule.name).toFinset \ visited.toFinset).card, 0, 0)
decreasing_by
  apply Prod.Lex.left
  simp only [List.toFinset_cons, Finset.sdiff_insert]
  apply Finset.card_erase_lt_of_mem
  simp_all [List.mem_toFinset]

/-- Source `validateProductionTerminates`: literals terminate; `*` and `?` evaluate
first to the empty string and terminate; `+` recurses into its operand; a
rule reference follows the named rule; a choice follows only its first
alternative; a sequence checks every element. -/
def validateProductionTerminates (g : Language) (p : Production) (visited : List String) :
    Except ValidationError Unit :=
  match p with
  | .literal _ => .ok ()
  | .unaryOperator .star _ => .ok ()
  | .unaryOperator .question _ => .ok ()
  | .unaryOperator .plus inner => validateProductionTerminates g inner visited
  | .rule n _ _ =>
    match g.rulesByNameGet n with
    | some r => validateRuleTerminates g r visited
    | none => .ok ()
  | .choice [] => .ok ()
  | .choice (c :: _) => validateProductionTerminates g c visited
  | .sequence ps => validateSequenceTerminates g ps visited
termination_by (((g.rules.map Rule.name).toFinset \ visited.toFinset).card, 1, sizeOf p)
decreasing_by
  all_goals first
  | exact Prod.Lex.right _ (Prod.Lex.left _ _ (by omega))
  | (apply Prod.Lex.right; apply Prod.Lex.right; simp; omega)
  | (apply Prod.Lex.right; apply Prod.Lex.right; simp_arith)

/-- The `for … of` loop of the sequence case of
`validateProductionTerminates`: every child is checked, first error wins. -/
def validateSequenceTerminates (g : Language) (ps : List Production) (visited : List String) :
    Except ValidationError Unit :=
  match ps with
  | [] => .ok ()
  | p :: rest =>
    match validateProductionTerminates g p visited with
    | .error e => .error e
    | .ok () => validateSequenceTerminates g rest visited
termination_by (((g.rules.map Rule.name).toFinset \ visited.toFinset).card, 1, sizeOf ps)
decreasing_by
  all_goals apply Prod.Lex.right; apply Prod.Lex.right
  all_goals simp_arith

end

/-- The `for … of this.rules` loop running `validateRuleReferences` on each
rule's production; the first thrown error propagates. -/
def validateRefsList (ruleNames : List String) : List Rule → Except ValidationError Unit
  | [] => .ok ()
  | r :: rest =>
    match validateRuleReferences ruleNames r.production with
    | .error e => .error e
    | .ok () => validateRefsList ruleNames rest

/-- The `for … of this.rules` loop running `validateRuleTerminates` on each
rule with a fresh empty path; the first thrown error propagates. -/
def validateTermsList (g : Language) : List Rule → Except ValidationError Unit
  | [] => .ok ()
  | r :: rest =>
    match validateRuleTerminates g r [] with
    | .error e => .error e
    | .ok () => validateTermsList g rest

/-- Source `Language.validate` as run by the constructor: duplicate scan, then the
reference check over every rule, then the termination check over every rule.
Each stage throws its first error. -/
def Language.validate (g : Language) : Except ValidationError Unit :=
  match findDuplicate g.rules [] with
  | some r => .error ⟨"Duplicate rule", r.nameStart, r.nameEnd⟩
  | none =>
    match validateRefsList g.ruleNames g.rules with
    | .error e => .error e
    | .ok () => validateTermsList g g.rules

/-- The message of a thrown validation error, if any. -/
def errMsg : Except ValidationError Unit → Option String
  | .error e => some e.message
  | .ok () => none

/-! Specification-side predicates for the validator claims.  These follow the
spec's description of the leftmost-choice graph (first alternative of a
choice, first element of a sequence, inner production of a plus) and of rule
references, and are compared against the behaviour of the embedded code. -/

mutual

/-- Spec-side: the leftmost traversal starting at rule `r` revisits a rule
already on the current path. -/
def leftmostLoopsRule (g : Language) (r : Rule) (visited : List String) : Bool :=
  if r.name ∈ visited then true
  else if _h : r.name ∈ g.rules.map Rule.name then
    leftmostLoopsProd g r.production (r.name :: visited)
  else false
termination_by (((g.rules.map Rule.name).toFinset \ visited.toFinset).card, 0, 0)
decreasing_by
  apply Prod.Lex.left
  simp only [List.toFinset_cons, Finset.sdiff_insert]
  apply Finset.card_erase_lt_of_mem
  simp_all [List.mem_toFinset]

/-- Spec-side: the leftmost traversal of production `p` (first alternative of
a choice, first element of a sequence, inner production of `+`; `*` and `?`
terminate trivially) revisits a rule on the path. -/
def leftmostLoopsProd (g : Language) (p : Production) (visited : List String) : Bool :=
  match p with
  | .literal _ => false
  | .unaryOperator .star _ => false
  | .unaryOperator .question _ => false
  | .unaryOperator .plus inner => leftmostLoopsProd g inner visited
  | .rule n _ _ =>
    match g.rulesByNameGet n with
    | some r => leftmostLoopsRule g r visited
    | none => false
  | .choice [] => false
  | .choice (c :: _) => leftmostLoopsProd g c visited
  | .sequence [] => false
  | .sequence (p0 :: _) => leftmostLoopsProd g p0 visited
termination_by (((g.rules.map Rule.name).toFinset \ visited.toFinset).card, 1, sizeOf p)
decreasing_by
  all_goals first
  | exact Prod.Lex.right _ (Prod.Lex.left _ _ (by omega))
  | (apply Prod.Lex.right; apply Prod.Lex.right; simp_arith)

end

/-- Spec-side: some rule's leftmost traversal revisits a rule on its path. -/
def Language.leftmostRevisits (g : Language) : Bool :=
  g.rules.any (fun r => leftmostLoopsRule g r [])

mutual

/-- Spec-side: the production contains a reference to an undeclared rule. -/
def hasUndeclaredRef (ruleNames : List String) : Production → Bool
  | .literal _ => false
  | .sequence ps => hasUndeclaredRefList ruleNames ps
  | .rule n _ _ => !(ruleNames.contains n)
  | .unaryOperator _ p => hasUndeclaredRef ruleNames p
  | .choice cs => hasUndeclaredRefList ruleNames cs

/-- Spec-side: some production in the list references an undeclared rule. -/
def hasUndeclaredRefList (ruleNames : List String) : List Production → Bool
  | [] => false
  | p :: rest => hasUndeclaredRef ruleNames p || hasUndeclaredRefList ruleNames rest

end

/-- Spec-side: some rule of the grammar references an undeclared rule. -/
def Language.referencesUndeclared (g : Language) : Bool :=
  g.rules.any (fun r => hasUndeclaredRef g.ruleNames r.production)

/-! Concrete grammars from the validation scenarios, as the textual parser
builds them (a rule body always parses to a `choice` of its alternatives; an
`ℇ` alternative parses to an empty `sequence`).  Offsets are irrelevant to
the claims and set to zero. -/

/-- Source `Language "loop": start = start;` -/
def loopLang : Language :=
  ⟨"loop", [⟨"start", .choice [.rule "start" 0 0], false, 0, 0⟩]⟩

/-- Source `Language "loop": start = "a" start;` -/
def aStartLang : Language :=
  ⟨"loop", [⟨"start", .choice [.sequence [.literal "a", .rule "start" 0 0]], false, 0, 0⟩]⟩

/-- Source `Language "loop": foo = "a" bar; bar = "b" baz; baz = "c" foo;` -/
def mutualLang : Language :=
  ⟨"loop",
   [⟨"foo", .choice [.sequence [.literal "a", .rule "bar" 0 0]], false, 0, 0⟩,
    ⟨"bar", .choice [.sequence [.literal "b", .rule "baz" 0 0]], false, 0, 0⟩,
    ⟨"baz", .choice [.sequence [.literal "c", .rule "foo" 0 0]], false, 0, 0⟩]⟩

/-- Source `Language "x": start = honk;` -/
def honkLang : Language :=
  ⟨"x", [⟨"start", .choice [.rule "honk" 0 0], false, 0, 0⟩]⟩

/-- Source `Language "x": start = "a" start | ℇ;` -/
def aStarEpsilonLang : Language :=
  ⟨"x",
   [⟨"start", .choice [.sequence [.literal "a", .rule "start" 0 0], .sequence []],
     false, 0, 0⟩]⟩

/-! ### The low-level generator (`src/generator/lowlevel.ts`) -/

/-- A fragment of a sentence skeleton: a literal string or a label
placeholder standing for one occurrence of a labeled rule. -/
inductive Frag where
  | str (s : String)
  | label (l : String)
deriving Repr, DecidableEq

/-- A sentence skeleton: the element type of every generator stream. -/
abbrev Skeleton := List Frag

/-- Node kinds of the compiled production graph.  The source builds a cyclic
object graph: rule nodes are interned by name in `ruleMap`, and `*`/`+`
rewrite into fresh choice/sequence nodes tied back into themselves.  The
graph is represented here by its defining equations: `ruleRef`, `star` and
`plus` unfold in the interpreter to exactly the node structure the source
allocates (`X*` to `ℇ | X X*`, `X+` to `X (ℇ | X+)`, a rule to its converted
body, wrapped in a label marker when the rule is labeled). -/
inductive LLProd where
  | literal (text : String)
  | seq (ps : List LLProd)
  | choice (cs : List LLProd)
  | labeled (label : String) (inner : LLProd)
  | ruleRef (name : String)
  | star (inner : LLProd)
  | plus (inner : LLProd)
deriving Repr

mutual

/-- Source `Generator.convertProduction`. -/
def convertProduction : Production → LLProd
  | .literal v => .literal v
  | .sequence ps => .seq (convertProductionList ps)
  | .rule n _ _ => .ruleRef n
  | .unaryOperator .star p => .star (convertProduction p)
  | .unaryOperator .plus p => .plus (convertProduction p)
  | .unaryOperator .question p => .choice [.seq [], convertProduction p]
  | .choice cs => .choice (convertProductionList cs)

/-- Source `productions.map((p) => this.convertProduction(p))`. -/
def convertProductionList : List Production → List LLProd
  | [] => []
  | p :: rest => convertProduction p :: convertProductionList rest

end

/-- Source `Generator.convertRule`: the rule body is wrapped in a one-element
sequence (filled in after interning, to close cycles), and in a label marker
when the rule is labeled. -/
def convertRuleNode (r : Rule) : LLProd :=
  if r.labeled then .labeled r.name (.seq [convertProduction r.production])
  else .seq [convertProduction r.production]

/-- Source `this.language.rules.find((r) => r.name === production.name)`: the first
declared rule with the given name. -/
def Language.findRule (g : Language) (n : String) : Option Rule :=
  g.rules.find? (fun r => r.name = n)

/-- The generator's `ruleMap`: every rule interned by name as its converted
node.  `convertRule` memoizes the first conversion of each name and
`rules.find` returns the first declared rule, so lookup is first-match. -/
def ruleNodes (g : Language) : List (String × LLProd) :=
  g.rules.map (fun r => (r.name, convertRuleNode r))

/-- First-match lookup in the interned node table. -/
def nodesFind (nodes : List (String × LLProd)) (n : String) : Option LLProd :=
  (nodes.find? (fun x => x.1 = n)).map (fun x => x.2)

/-- Source `generate(expandLabels)` of a production node, computed to a finite
approximation.  `fuel` bounds the depth of the computation: every recursive
step consumes one unit, and an exhausted budget marks the stream incomplete,
so a computed prefix is always an exact prefix of the real (lazy, unbounded)
stream.  Cases mirror the source:
* a literal yields one skeleton and completes;
* `Sequence.generate`/`concatenateSequence`: an empty sequence yields one
  empty skeleton, a singleton delegates, otherwise the head stream is
  pair-interleaved with the concatenation of the rest and skeletons are
  appended pointwise;
* `Choice.generate`: one alternative delegates, otherwise all alternatives
  run in round robin;
* a label marker yields its inner stream when labels are being expanded and
  the one-element placeholder skeleton otherwise;
* a rule reference unfolds to the interned node of the named rule (the
  non-null assertion in the source is modelled as an empty incomplete
  stream, unreachable for validated grammars);
* `star`/`plus` unfold to the cyclic node structure the source allocates. -/
def gen (nodes : List (String × LLProd)) (expand : Bool) : Nat → LLProd → PList Skeleton
  | 0, _ => ([], false)
  | fuel + 1, p =>
    match p with
    | .literal s => ([[.str s]], true)
    | .seq [] => ([[]], true)
    | .seq [q] => gen nodes expand fuel q
    | .seq (q :: rest) =>
      let pr := ecP (gen nodes expand fuel q) (gen nodes expand fuel (.seq rest))
      (pr.1.map (fun x => x.1 ++ x.2), pr.2)
    | .choice [c] => gen nodes expand fuel c
    | .choice cs => roundRobin (cs.map (fun c => gen nodes expand fuel c))
    | .labeled l inner =>
      if expand then gen nodes expand fuel inner else ([[.label l]], true)
    | .ruleRef n =>
      match nodesFind nodes n with
      | some node => gen nodes expand fuel node
      | none => ([], false)
    | .star inner => gen nodes expand fuel (.choice [.seq [], .seq [inner, .star inner]])
    | .plus inner => gen nodes expand fuel (.seq [inner, .choice [.seq [], .plus inner]])

/-- Whether any rule of the grammar is labeled. -/
def Language.containsLabels (g : Language) : Bool := g.rules.any Rule.labeled

/-- The generator's root: a choice with no alternatives when the grammar has
no rules, otherwise the converted first rule. -/
def generatorRoot (g : Language) : LLProd :=
  match g.rules with
  | [] => .choice []
  | r :: _ => convertRuleNode r

/-- Source `Array.prototype.join('')` stringification of a fragment.  A placeholder
only reaches a join in the source as JavaScript's object-to-string
conversion; every skeleton that is joined is placeholder-free. -/
def fragToString : Frag → String
  | .str s => s
  | .label _ => "[object Object]"

/-- Source `result.join('')` on a skeleton. -/
def joinSkeleton (sk : Skeleton) : String := String.join (sk.map fragToString)

/-- Increment the count of `l` in an insertion-ordered association list,
appending a fresh entry on first occurrence (JavaScript `Map` semantics). -/
def bumpCount (l : String) : List (String × Nat) → List (String × Nat)
  | [] => [(l, 1)]
  | (k, c) :: rest => if k = l then (k, c + 1) :: rest else (k, c) :: bumpCount l rest

/-- The `labelsToCounts` map of `expandLabels`: the multiset of label
placeholders in a skeleton, grouped by rule name in first-occurrence order. -/
def labelCounts (sk : Skeleton) : List (String × Nat) :=
  sk.foldl (fun acc f => match f with | .str _ => acc | .label l => bumpCount l acc) []

/-- The `labellingsByRuleName` map of `expandLabels`: for each labeled rule
name with `count` placeholders, take the first `count` expansions of the rule
(`ruleMap.get(ruleName)!.generate(true)`) and enumerate every canonical
labelling over them.  `none` when the needed prefix of a rule's stream has
not been computed at this fuel. -/
def labellingsFor (nodes : List (String × LLProd)) (fuel : Nat) :
    List (String × Nat) → Option (List (String × List (List String)))
  | [] => some []
  | (ruleName, count) :: rest => do
    let node ← nodesFind nodes ruleName
    let choices ← pTake (gen nodes true fuel node) count
    let ls ← everyLabelling (choices.map joinSkeleton) count
    let more ← labellingsFor nodes fuel rest
    pure ((ruleName, ls) :: more)

/-- Lookup in a JavaScript `Map` built from a pair list: the last pair with
the key wins. -/
def assocGet (m : List (String × α)) (k : String) : Option α :=
  (m.reverse.find? (fun x => x.1 = k)).map (fun x => x.2)

/-- Source `Map.set` on an association list with unique keys. -/
def setAssoc : List (String × Nat) → String → Nat → List (String × Nat)
  | [], k, v => [(k, v)]
  | (k0, v0) :: rest, k, v =>
    if k0 = k then (k, v) :: rest else (k0, v0) :: setAssoc rest k v

/-- The substitution walk of `expandLabels`: literals pass through; the i-th
occurrence of a placeholder for `name` is replaced by the i-th element of the
assignment's labelling for `name`.  The source's internal-error throws
(unknown label, running out of labels) are modelled as `none`. -/
def substFrags (labelingMap : List (String × List String)) :
    Skeleton → List (String × Nat) → Option (List String)
  | [], _ => some []
  | f :: rest, idxs =>
    match f with
    | .str s => (substFrags labelingMap rest idxs).map (fun out => s :: out)
    | .label l => do
      let labeling ← assocGet labelingMap l
      let idx := (assocGet idxs l).getD 0
      let v ← labeling.get? idx
      let restOut ← substFrags labelingMap rest (setAssoc idxs l (idx + 1))
      pure (v :: restOut)

/-- Source `Generator.expandLabels` on one skeleton: count placeholders; with none,
join and emit; otherwise build the per-rule labellings, interleave every
assignment with `everyCombinationMany`, and emit one substituted string per
assignment. -/
def expandLabelsF (nodes : List (String × LLProd)) (fuel : Nat) (results : Skeleton) :
    Option (List String) :=
  let counts := labelCounts results
  if counts.isEmpty then some [joinSkeleton results]
  else do
    let labellingsByRuleName ← labellingsFor nodes fuel counts
    let foo := labellingsByRuleName.map (fun x => x.2.map (fun l => (x.1, l)))
    let combos := everyCombinationMany (foo.map (fun l => (l, true)))
    let rec emit : List (List (String × List String)) → Option (List String)
      | [] => some []
      | pairs :: more => do
        let out ← substFrags pairs results (pairs.map (fun p => (p.1, 0)))
        let rest ← emit more
        pure (String.join out :: rest)
    emit combos.1

/-- The outer loop of the labeled path of `Generator[Symbol.iterator]`: each
skeleton is expanded in turn; a skeleton whose expansion needs an uncomputed
prefix truncates the output there. -/
def expandAll (nodes : List (String × LLProd)) (fuel : Nat) : List Skeleton → Bool → PList String
  | [], complete => ([], complete)
  | sk :: rest, complete =>
    match expandLabelsF nodes fuel sk with
    | none => ([], false)
    | some outs =>
      let r := expandAll nodes fuel rest complete
      (outs ++ r.1, r.2)

/-- Source `Generator[Symbol.iterator]`: without labeled rules, generate from the
root with `expandLabels = true` and join each skeleton; otherwise generate
skeletons with placeholders and expand each one. -/
def generatorOutputs (g : Language) (fuel : Nat) : PList String :=
  let nodes := ruleNodes g
  if g.containsLabels then
    let sk := gen nodes false fuel (generatorRoot g)
    expandAll nodes fuel sk.1 sk.2
  else
    let sk := gen nodes true fuel (generatorRoot g)
    (sk.1.map joinSkeleton, sk.2)

/-! Concrete grammars from the generator scenarios. -/

/-- Scenario (c): `start = ε | "a" aStar "b" start; aStar = ε | "a" aStar;` -/
def abStarLang : Language :=
  ⟨"(a+b)*",
   [⟨"start",
     .choice [.sequence [],
              .sequence [.literal "a", .rule "aStar" 0 0, .literal "b", .rule "start" 0 0]],
     false, 0, 0⟩,
    ⟨"aStar", .choice [.sequence [], .sequence [.literal "a", .rule "aStar" 0 0]],
     false, 0, 0⟩]⟩

/-- Scenario (d): `start = ε | identifier start; identifier! = "a" | "b" | "c";` -/
def labelledLang : Language :=
  ⟨"one label",
   [⟨"start", .choice [.sequence [], .sequence [.rule "identifier" 0 0, .rule "start" 0 0]],
     false, 0, 0⟩,
    ⟨"identifier", .choice [.literal "a", .literal "b", .literal "c"], true, 0, 0⟩]⟩

/-- A grammar with an empty rule list. -/
def emptyLang : Language := ⟨"empty", []⟩

/-! ### Analysis-side definitions for the labelling enumerator -/

/-- Source `subLabelling.reduce((x, y) => Math.max(x, y), 0)`. -/
def maxOfLabelling (s : List Nat) : Nat := s.foldl max 0

/-- The value `everyLabellingHelper(m, k)` computes on its terminating runs
(`k ≥ 1`), as a total structural recursion on `k`.  `hl m 0` is a junk value:
the source diverges there whenever `m ≥ 1`. -/
def hl (m : Nat) : Nat → List (List Nat)
  | 0 => []
  | 1 => if m = 0 then [] else [[0]]
  | k + 2 =>
    if m = 0 then [] else
    (hl m (k + 1)).flatMap (fun s =>
      (List.range (min (maxOfLabelling s + 1) (m - 1) + 1)).map (fun i => s ++ [i]))

/-- Stirling numbers of the second kind: the number of set partitions of `k`
labelled positions into exactly `j` nonempty blocks, by the standard
recurrence.  This is the specification-side counting function. -/
def stirling : Nat → Nat → Nat
  | 0, 0 => 1
  | 0, _ + 1 => 0
  | _ + 1, 0 => 0
  | k + 1, j + 1 => (j + 1) * stirling k (j + 1) + stirling k j

/-- The number of set partitions of `k` positions into at most `m` blocks. -/
def partitionsUpTo (k m : Nat) : Nat :=
  (List.range (m + 1)).map (stirling k) |>.sum

/-! ### The parse entry points (`src/parser/parser.ts`) and error collection -/

/-- The parser's tagged `Result` union. -/
inductive Result (S F : Type) where
  | success (value : S)
  | failure (error : F)
deriving Repr, DecidableEq

/-- The per-rule duplicate errors, collected across the whole rule list. -/
def duplicateErrors : List Rule → List String → List ValidationError
  | [], _ => []
  | r :: rest, seen =>
    (if r.name ∈ seen then [⟨"Duplicate rule", r.nameStart, r.nameEnd⟩] else []) ++
      duplicateErrors rest (r.name :: seen)

mutual

/-- All undeclared-reference errors of a production, collected. -/
def collectRefErrors (ruleNames : List String) : Production → List ValidationError
  | .literal _ => []
  | .sequence ps => collectRefErrorsList ruleNames ps
  | .rule n s e => if n ∈ ruleNames then [] else [⟨"Rule not declared", s, e⟩]
  | .unaryOperator _ p => collectRefErrors ruleNames p
  | .choice cs => collectRefErrorsList ruleNames cs

/-- All undeclared-reference errors of a production list, collected. -/
def collectRefErrorsList (ruleNames : List String) : List Production → List ValidationError
  | [] => []
  | p :: rest => collectRefErrors ruleNames p ++ collectRefErrorsList ruleNames rest

end

/-- Modelled from the spec: `Language.tryToConstruct`, the error-collecting
validation entry point, is not present under `src/` — only its caller
(`parse`/`tryParse` in `src/parser/parser.ts`) and its tests are.  Per the
spec's propagation policy, validation collects all the errors it can per rule
before surfacing — duplicate-rule errors, undeclared-reference errors and
leftmost-loop errors are gathered across the whole grammar — and returns a
tagged success/failure result carrying the error list.  The per-rule checks
reuse the embedded validator pieces. -/
def tryToConstruct (name : String) (rules : List Rule) : Result Language (List ValidationError) :=
  let g : Language := ⟨name, rules⟩
  let dupErrs := duplicateErrors rules []
  let refErrs := rules.flatMap (fun r => collectRefErrors g.ruleNames r.production)
  let loopErrs := rules.filterMap (fun r =>
    match validateRuleTerminates g r [] with
    | .error e => some e
    | .ok () => none)
  match dupErrs ++ refErrs ++ loopErrs with
  | [] => .success g
  | es => .failure es

/-- Source `ParserContext.tryParse`: a thrown parse error is caught and carried as a
one-element error list; a successfully parsed grammar is handed to
`Language.tryToConstruct`.  The textual layer (tokenizer and recursive
descent) is an external collaborator; its outcome — a located parse error or
a parsed name and rule list — is the input here. -/
def tryParse (input : Except ValidationError (String × List Rule)) :
    Result Language (List ValidationError) :=
  match input with
  | .error e => .failure [e]
  | .ok nameAndRules => tryToConstruct nameAndRules.1 nameAndRules.2

/-- Source `parse`: return the parsed language, or `throw context.result.error[0]`
— the first collected error (`List.head?`; `none` models the JavaScript
`undefined` an empty list would yield, unreachable since failure lists are
never empty). -/
def parse (input : Except ValidationError (String × List Rule)) :
    Except (Option ValidationError) Language :=
  match tryParse input with
  | .success v => .ok v
  | .failure es => .error es.head?

/-- A grammar with two independent validation problems: `start = honk;`
references an undeclared rule and `foo = foo;` loops. -/
def twoProblemRules : List Rule :=
  [⟨"start", .choice [.rule "honk" 10 14], false, 0, 5⟩,
   ⟨"foo", .choice [.rule "foo" 22 25], false, 16, 19⟩]

/-! ### Specification-side derivability (the language defined by a grammar) -/

/-- The classical derivation relation of the grammar dialect, following the
spec's production meanings: a literal emits exactly its string, a rule
reference inlines the named rule, a sequence concatenates, a choice takes any
alternative, `*` matches zero or more, `+` one or more, `?` zero or one. -/
inductive Derives (g : Language) : Production → String → Prop where
  | literal (v : String) : Derives g (.literal v) v
  | ruleRef {n : String} {s e : Nat} {r : Rule} {w : String} :
      g.findRule n = some r → Derives g r.production w → Derives g (.rule n s e) w
  | seqNil : Derives g (.sequence []) ""
  | seqCons {p : Production} {ps : List Production} {w1 w2 : String} :
      Derives g p w1 → Derives g (.sequence ps) w2 →
      Derives g (.sequence (p :: ps)) (w1 ++ w2)
  | choice {cs : List Production} {c : Production} {w : String} :
      c ∈ cs → Derives g c w → Derives g (.choice cs) w
  | starNil {p : Production} : Derives g (.unaryOperator .star p) ""
  | starCons {p : Production} {w1 w2 : String} :
      Derives g p w1 → Derives g (.unaryOperator .star p) w2 →
      Derives g (.unaryOperator .star p) (w1 ++ w2)
  | plusOne {p : Production} {w : String} :
      Derives g p w → Derives g (.unaryOperator .plus p) w
  | plusMore {p : Production} {w1 w2 : String} :
      Derives g p w1 → Derives g (.unaryOperator .plus p) w2 →
      Derives g (.unaryOperator .plus p) (w1 ++ w2)
  | questionNone {p : Production} : Derives g (.unaryOperator .question p) ""
  | questionSome {p : Production} {w : String} :
      Derives g p w → Derives g (.unaryOperator .question p) w

/-- A sentence of the grammar's language: derivable from the first rule. -/
def Language.derivesSentence (g : Language) (w : String) : Prop :=
  match g.rules with
  | [] => False
  | r :: _ => Derives g r.production w

/-- A two-sentence labelled grammar:
`start = identifier; identifier! = "a" | "b";`. -/
def twoLetterLabelledLang : Language :=
  ⟨"lab",
   [⟨"start", .choice [.rule "identifier" 0 0], false, 0, 0⟩,
    ⟨"identifier", .choice [.literal "a", .literal "b"], true, 0, 0⟩]⟩

/-! ## Helper lemmas -/

/-- With a non-empty alphabet and count 0, the helper recursion never reaches
a base case: it returns `none` at every fuel. -/
theorem everyLabellingHelperF_zero_count (m : Nat) (hm : 1 ≤ m) :
    ∀ fuel, everyLabellingHelperF fuel m 0 = none := by
  intro fuel
  induction fuel with
  | zero => rfl
  | succ fuel ih =>
    have hm0 : m ≠ 0 := by omega
    simp [everyLabellingHelperF, hm0, ih]

/-- On its terminating runs (`count ≥ 1`), the fueled helper computes exactly
the total recursion `hl`, given fuel at least `count + 1`. -/
theorem everyLabellingHelperF_eq_hl :
    ∀ (k : Nat), 1 ≤ k → ∀ (m fuel : Nat), k + 1 ≤ fuel →
      everyLabellingHelperF fuel m k = some (hl m k) := by
  intro k
  induction k with
  | zero => intro h; exact absurd h (by omega)
  | succ k ih =>
    intro _ m fuel hfuel
    match fuel, hfuel with
    | fuel + 1, _ =>
      match k with
      | 0 =>
        by_cases hm : m = 0 <;> simp [everyLabellingHelperF, hl, hm]
      | j + 1 =>
        by_cases hm : m = 0
        · simp [everyLabellingHelperF, hl, hm]
        · have hrec := ih (by omega) m fuel (by omega)
          simp [everyLabellingHelperF, hl, hm, hrec, maxOfLabelling]


/-- Appending one value to a labelling takes the maximum with it. -/
theorem maxOfLabelling_append (s : List Nat) (v : Nat) :
    maxOfLabelling (s ++ [v]) = max (maxOfLabelling s) v := by
  simp [maxOfLabelling, List.foldl_append]

/-- How many values below `N` give `max i v = j`: all of `0..i` when `j = i`,
exactly one when `i < j < N`, none otherwise. -/
theorem countP_range_max (i j : Nat) :
    ∀ N, (List.range N).countP (fun v => max i v == j) =
      if j = i then min N (i + 1) else if i < j ∧ j < N then 1 else 0 := by
  intro N
  induction N with
  | zero => simp
  | succ N ih =>
    rw [List.range_succ, List.countP_append, ih]
    simp only [List.countP_cons, List.countP_nil, beq_iff_eq]
    split_ifs <;> omega

/-- A list's length is the sum of its class sizes under a bounded
classifier. -/
theorem length_eq_sum_countP {α : Type} (f : α → Nat) (M : Nat) :
    ∀ (l : List α), (∀ a ∈ l, f a < M) →
      l.length = ∑ j in Finset.range M, l.countP (fun a => f a == j) := by
  intro l
  induction l with
  | nil => simp
  | cons a t ih =>
    intro h
    simp only [List.countP_cons, beq_iff_eq, List.length_cons]
    rw [Finset.sum_add_distrib, ← ih (fun x hx => h x (List.mem_cons_of_mem a hx))]
    have : (∑ j in Finset.range M, if f a = j then 1 else 0) = 1 := by
      rw [Finset.sum_ite_eq (Finset.range M) (f a) (fun _ => 1)]
      simp [h a (List.mem_cons_self a t)]
    omega

/-- Summing a function of a bounded classifier over a list groups into class
size times class value. -/
theorem map_sum_eq_sum_countP_mul {α : Type} (f : α → Nat) (g : Nat → Nat) (M : Nat) :
    ∀ (l : List α), (∀ a ∈ l, f a < M) →
      (l.map (fun a => g (f a))).sum =
        ∑ j in Finset.range M, l.countP (fun a => f a == j) * g j := by
  intro l
  induction l with
  | nil => simp
  | cons a t ih =>
    intro h
    simp only [List.countP_cons, beq_iff_eq, List.map_cons, List.sum_cons]
    have expand : ∀ j : Nat,
        (t.countP (fun x => f x == j) + if f a = j then 1 else 0) * g j =
          t.countP (fun x => f x == j) * g j + (if f a = j then g j else 0) := by
      intro j; split_ifs <;> ring
    simp only [beq_iff_eq] at expand
    rw [Finset.sum_congr rfl (fun j _ => expand j), Finset.sum_add_distrib,
      ← ih (fun x hx => h x (List.mem_cons_of_mem a hx)),
      Finset.sum_ite_eq (Finset.range M) (f a) g]
    simp [h a (List.mem_cons_self a t)]
    omega

/-- Every labelling produced over an `m`-symbol alphabet uses indices below
`m`. -/
theorem hl_max_lt (m : Nat) (hm : 1 ≤ m) :
    ∀ k, 1 ≤ k → ∀ s ∈ hl m k, maxOfLabelling s < m := by
  intro k
  induction k with
  | zero => intro h; exact absurd h (by omega)
  | succ k ih =>
    intro _ s hs
    match k with
    | 0 =>
      have hm0 : m ≠ 0 := by omega
      simp [hl, hm0] at hs
      subst hs
      simp [maxOfLabelling]
      omega
    | k + 1 =>
      have hm0 : m ≠ 0 := by omega
      simp only [hl, hm0, if_false, List.mem_flatMap, ite_false] at hs
      obtain ⟨t, ht, hmem⟩ := hs
      simp only [List.mem_map, List.mem_range] at hmem
      obtain ⟨v, hv, rfl⟩ := hmem
      have hmax := ih (by omega) t ht
      rw [maxOfLabelling_append]
      omega

/-- The number of labellings of count `k` whose maximum index is `j` is the
Stirling number `S(k, j + 1)`, as long as index `j` is allowed (`j + 1 ≤ m`). -/
theorem hl_countP (m : Nat) (hm : 1 ≤ m) :
    ∀ k, 1 ≤ k → ∀ j,
      (hl m k).countP (fun s => maxOfLabelling s == j) =
        if j + 1 ≤ m then stirling k (j + 1) else 0 := by
  intro k
  induction k with
  | zero => intro h; exact absurd h (by omega)
  | succ k ih =>
    intro _ j
    have hm0 : m ≠ 0 := by omega
    match k with
    | 0 =>
      simp only [hl, hm0, ite_false, List.countP_cons, List.countP_nil, beq_iff_eq]
      match j with
      | 0 => simp [maxOfLabelling, stirling, hm]
      | j + 1 => simp [maxOfLabelling, stirling]
    | k + 1 =>
      -- unfold one step of hl and push countP through flatMap and map
      have step : (hl m (k + 2)).countP (fun s => maxOfLabelling s == j) =
          ((hl m (k + 1)).map (fun s =>
            (List.range (min (maxOfLabelling s + 1) (m - 1) + 1)).countP
              (fun v => max (maxOfLabelling s) v == j))).sum := by
        conv_lhs => rw [hl]
        rw [if_neg hm0, List.countP_flatMap]
        congr 1
        apply List.map_congr_left
        intro s _
        simp only [Function.comp_apply, List.countP_map]
        congr 1
        funext v
        simp [maxOfLabelling_append]
      rw [step]
      -- pointwise: the inner count equals a function of the max alone
      have inv := hl_max_lt m hm (k + 1) (by omega)
      have ptwise : (hl m (k + 1)).map (fun s =>
            (List.range (min (maxOfLabelling s + 1) (m - 1) + 1)).countP
              (fun v => max (maxOfLabelling s) v == j)) =
          (hl m (k + 1)).map (fun s =>
            (if j = maxOfLabelling s then maxOfLabelling s + 1 else 0) +
              (if j = maxOfLabelling s + 1 ∧ maxOfLabelling s + 1 ≤ m - 1 then 1 else 0)) := by
        apply List.map_congr_left
        intro s hs
        have hlt := inv s hs
        rw [countP_range_max]
        split_ifs <;> omega
      rw [ptwise]
      rw [map_sum_eq_sum_countP_mul maxOfLabelling
        (fun i => (if j = i then i + 1 else 0) + (if j = i + 1 ∧ i + 1 ≤ m - 1 then 1 else 0))
        m (hl m (k + 1)) inv]
      -- replace counts by Stirling numbers via the induction hypothesis
      have hIH : ∀ i ∈ Finset.range m,
          (hl m (k + 1)).countP (fun s => maxOfLabelling s == i) *
              ((if j = i then i + 1 else 0) + (if j = i + 1 ∧ i + 1 ≤ m - 1 then 1 else 0)) =
            (if j = i then stirling (k + 1) (i + 1) * (i + 1) else 0) +
              (if j = i + 1 ∧ i + 1 ≤ m - 1 then stirling (k + 1) (i + 1) else 0) := by
        intro i hi
        rw [ih (by omega) i, if_pos (by simp at hi; omega)]
        split_ifs <;> ring
      rw [Finset.sum_congr rfl hIH, Finset.sum_add_distrib]
      have hA : (∑ i in Finset.range m, if j = i then stirling (k + 1) (i + 1) * (i + 1) else 0) =
          if j < m then stirling (k + 1) (j + 1) * (j + 1) else 0 := by
        rw [Finset.sum_ite_eq (Finset.range m) j (fun i => stirling (k + 1) (i + 1) * (i + 1))]
        simp
      have hB : (∑ i in Finset.range m,
            if j = i + 1 ∧ i + 1 ≤ m - 1 then stirling (k + 1) (i + 1) else 0) =
          if 1 ≤ j ∧ j ≤ m - 1 then stirling (k + 1) j else 0 := by
        match j with
        | 0 => simp
        | jp + 1 =>
          have conv1 : ∀ i ∈ Finset.range m,
              (if jp + 1 = i + 1 ∧ i + 1 ≤ m - 1 then stirling (k + 1) (i + 1) else 0) =
                (if jp = i then (if jp + 1 ≤ m - 1 then stirling (k + 1) (jp + 1) else 0) else 0) := by
            intro i _
            by_cases hji : jp = i
            · subst hji; simp
            · have hcond : ¬ (jp + 1 = i + 1 ∧ i + 1 ≤ m - 1) := by omega
              simp [hcond, hji]
          rw [Finset.sum_congr rfl conv1,
            Finset.sum_ite_eq (Finset.range m) jp
              (fun _ => if jp + 1 ≤ m - 1 then stirling (k + 1) (jp + 1) else 0)]
          by_cases hjm2 : jp ∈ Finset.range m
          · rw [if_pos hjm2]
            simp only [show (1 ≤ jp + 1 ∧ jp + 1 ≤ m - 1) ↔ (jp + 1 ≤ m - 1) from by omega]
          · have hge : m ≤ jp := by simpa using hjm2
            rw [if_neg hjm2, if_neg (by omega : ¬ (1 ≤ jp + 1 ∧ jp + 1 ≤ m - 1))]
      rw [hA, hB]
      by_cases hjm : j < m
      · rw [if_pos hjm, if_pos (by omega : j + 1 ≤ m)]
        match j with
        | 0 =>
          rw [if_neg (by omega : ¬ (1 ≤ 0 ∧ 0 ≤ m - 1))]
          conv_rhs => rw [stirling]
          simp [stirling]
        | jp + 1 =>
          rw [if_pos (by omega : 1 ≤ jp + 1 ∧ jp + 1 ≤ m - 1)]
          conv_rhs => rw [stirling]
          ring
      · rw [if_neg hjm, if_neg (by omega : ¬ (j + 1 ≤ m)), if_neg (by omega : ¬ (1 ≤ j ∧ j ≤ m - 1))]

/-- A positive number of positions admits no partition into zero blocks. -/
theorem stirling_zero_right (k : Nat) (hk : 1 ≤ k) : stirling k 0 = 0 := by
  match k, hk with
  | k + 1, _ => rfl

/-- The helper enumerates exactly as many labellings as there are set
partitions of `k` positions into at most `m` blocks. -/
theorem hl_length (m : Nat) : ∀ k, 1 ≤ k → (hl m k).length = partitionsUpTo k m := by
  intro k hk
  by_cases hm : 1 ≤ m
  · have inv := hl_max_lt m hm k hk
    rw [length_eq_sum_countP maxOfLabelling m (hl m k) inv]
    have congr1 : ∀ j ∈ Finset.range m,
        (hl m k).countP (fun s => maxOfLabelling s == j) = stirling k (j + 1) := by
      intro j hj
      rw [hl_countP m hm k hk j, if_pos (by simp at hj; omega)]
    rw [Finset.sum_congr rfl congr1]
    show _ = ((List.range (m + 1)).map (stirling k)).sum
    have : ((List.range (m + 1)).map (stirling k)).sum = ∑ j in Finset.range (m + 1), stirling k j := rfl
    rw [this, Finset.sum_range_succ', stirling_zero_right k hk]
    simp
  · have hm0 : m = 0 := by omega
    subst hm0
    have hnil : hl 0 k = [] := by
      match k, hk with
      | 1, _ => rfl
      | k + 2, _ => rfl
    rw [hnil]
    show 0 = ((List.range 1).map (stirling k)).sum
    have h1 : ((List.range 1).map (stirling k)).sum = stirling k 0 := rfl
    rw [h1, stirling_zero_right k hk]

/-- The first labelling emitted is the all-zero labelling. -/
theorem hl_head (m : Nat) (hm : 1 ≤ m) :
    ∀ k, 1 ≤ k → (hl m k).head? = some (List.replicate k 0) := by
  intro k
  induction k with
  | zero => intro h; exact absurd h (by omega)
  | succ k ih =>
    intro _
    have hm0 : m ≠ 0 := by omega
    match k with
    | 0 => simp [hl, hm0]
    | k + 1 =>
      have hh := ih (by omega)
      rcases hht : hl m (k + 1) with _ | ⟨r, t⟩
      · rw [hht] at hh; simp at hh
      · rw [hht] at hh
        simp only [List.head?_cons, Option.some_inj] at hh
        subst hh
        show (hl m (k + 2)).head? = _
        rw [hl, if_neg hm0, hht]
        rw [List.flatMap_cons]
        rw [List.head?_append]
        have hrange : (List.range (min (maxOfLabelling (List.replicate (k + 1) 0) + 1) (m - 1) + 1)) =
            0 :: (List.range (min (maxOfLabelling (List.replicate (k + 1) 0) + 1) (m - 1))).map (· + 1) := by
          rw [List.range_succ_eq_map]
        rw [hrange]
        simp [List.replicate_succ']

/-! ## Claim theorems -/

/-- C2: `everyCombination` emits pairs in the exact diagonal order the spec
fixes: for two streams of naturals starting at 1, the first ten outputs are
(1,1),(2,1),(1,2),(2,2),(3,1),(3,2),(1,3),(2,3),(3,3),(4,1); and for two
copies of the finite stream a,b,c the complete output (the loop terminates
through its own done-flags exit, witnessed by the `true` component) is
exactly the nine pairs (a,a),(b,a),(a,b),(b,b),(c,a),(c,b),(a,c),(b,c),(c,c)
in that order. -/
theorem C2_everyCombination_diagonal_order :
    (everyCombination naturalsFromOne naturalsFromOne 8).1.take 10 =
      [(1, 1), (2, 1), (1, 2), (2, 2), (3, 1), (3, 2), (1, 3), (2, 3), (3, 3), (4, 1)] ∧
    everyCombination abcStream abcStream 10 =
      ([("a", "a"), ("b", "a"), ("a", "b"), ("b", "b"), ("c", "a"), ("c", "b"),
        ("a", "c"), ("b", "c"), ("c", "c")], true) :=
  ⟨by decide, by decide⟩

/-- C6: for the labelled grammar
`start = ε | identifier start; identifier! = "a" | "b" | "c";` the
generator's first ten outputs are exactly
"", "a", "aa", "ab", "aaa", "aab", "aba", "abb", "abc", "aaaa": sentences
differing only by renaming of the labeled rule's tokens are emitted once, in
canonical first-occurrence labelling. -/
theorem C6_labelled_first_ten :
    (generatorOutputs labelledLang 24).1.take 10 =
      ["", "a", "aa", "ab", "aaa", "aab", "aba", "abb", "abc", "aaaa"] := by
  decide

/-- C7 counterexample: the output of the generator for
`start = ε | "a" aStar "b" start; aStar = ε | "a" aStar;` at index 13 is
"ababab", not "aaaabaab" as the claim states ("aaaabaab" sits at index 12). -/
theorem C7_index13_counterexample :
    (generatorOutputs abStarLang 28).1.get? 13 = some "ababab" ∧
    "ababab" ≠ "aaaabaab" :=
  ⟨by decide, by decide⟩

/-- C7 as amended: for `start = ε | "a" aStar "b" start; aStar = ε | "a" aStar;`
the first four outputs are exactly "", "ab", "aab", "abab", and the output at
index 12 (zero-based; the thirteenth output) is "aaaabaab".  The first twenty
outputs are listed in full, matching the repository's own test vector. -/
theorem C7_first_four_and_index12 :
    (generatorOutputs abStarLang 28).1.take 4 = ["", "ab", "aab", "abab"] ∧
    (generatorOutputs abStarLang 28).1.get? 12 = some "aaaabaab" ∧
    (generatorOutputs abStarLang 28).1.take 20 =
      ["", "ab", "aab", "abab", "aabab", "aaab", "aaabab", "abaab", "aabaab",
       "aaabaab", "aaaab", "aaaabab", "aaaabaab", "ababab", "aababab",
       "aaababab", "aaaababab", "aaaaab", "aaaaabab", "aaaaabaab"] :=
  ⟨by decide, by decide, by decide⟩

/-- C9: `everyLabellingHelper` terminates only when the alphabet is empty or
the count is at least 1: for a non-empty alphabet and count 0 the recursion
on `count - 1` never reaches a base case (`none` at every fuel), while for an
empty alphabet or count at least 1 it terminates (fuel `count + 1` always
suffices). -/
theorem C9_labelling_helper_termination :
    (∀ (fuel m : Nat), 1 ≤ m → everyLabellingHelperF fuel m 0 = none) ∧
    (∀ (m k : Nat), m = 0 ∨ 1 ≤ k → (everyLabellingHelperF (k + 1) m k).isSome = true) := by
  constructor
  · intro fuel m hm
    exact everyLabellingHelperF_zero_count m hm fuel
  · intro m k hk
    rcases hk with hm | hk
    · match k with
      | 0 => simp [everyLabellingHelperF, hm]
      | k + 1 => simp [everyLabellingHelperF, hm]
    · rw [everyLabellingHelperF_eq_hl k hk m (k + 1) (by omega)]
      rfl

/-- Witness for C9 at concrete inputs. -/
theorem C9_labelling_helper_termination_witness :
    everyLabellingHelperF 5 1 0 = none ∧ (everyLabellingHelperF 3 1 2).isSome = true :=
  ⟨C9_labelling_helper_termination.1 5 1 (by decide),
   C9_labelling_helper_termination.2 1 2 (Or.inr (by decide))⟩

/-- C10: iterating a `Language` whose rule list is empty yields the empty
stream: the generator's root becomes a choice with no alternatives, the
round robin over no iterators exits at once, and the (complete) output
stream is empty at every fuel, with no error raised. -/
theorem C10_empty_language_empty_stream :
    (∀ fuel : Nat, generatorOutputs emptyLang (fuel + 1) = ([], true)) ∧
    generatorRoot emptyLang = .choice [] :=
  ⟨fun _ => rfl, rfl⟩

/-- C3 as amended: for every alphabet and every count k at least 1,
`everyLabelling` terminates and yields exactly as many sequences as there are
set partitions of k positions into at most `|alphabet|` blocks, and when the
output is nonempty its first element is `alphabet[0]` repeated k times.  (At
k = 0 the claim fails: see the counterexample.) -/
theorem C3_labelling_partition_count (alphabet : List String) (k : Nat) (hk : 1 ≤ k) :
    ∃ ls, everyLabelling alphabet k = some ls ∧
      ls.length = partitionsUpTo k alphabet.length ∧
      (ls ≠ [] → ls.head? = some (List.replicate k (alphabet.getD 0 ""))) := by
  refine ⟨(hl alphabet.length k).map (fun numbered => numbered.map (fun n => alphabet.getD n "")),
    ?_, ?_, ?_⟩
  · rw [everyLabelling, everyLabellingHelperF_eq_hl k hk alphabet.length (k + 1) (by omega)]
    rfl
  · rw [List.length_map, hl_length alphabet.length k hk]
  · intro hne
    by_cases hm : 1 ≤ alphabet.length
    · rw [List.head?_map, hl_head alphabet.length hm k hk]
      simp [List.map_replicate]
    · have hlen0 : alphabet.length = 0 := by omega
      have hnil : hl alphabet.length k = [] := by
        rw [hlen0]
        match k, hk with
        | 1, _ => rfl
        | k + 2, _ => rfl
      rw [hnil] at hne
      simp at hne

/-- C3 counterexample: at m = 0, k = 0 the claim's count is wrong — the
enumerator yields nothing (size 0) while there is exactly one set partition
of zero positions into at most zero blocks — and at m = 1, k = 0 the source
does not terminate at all (`none` at the covering fuel). -/
theorem C3_size_counterexample :
    everyLabelling [] 0 = some [] ∧ everyLabelling ["a"] 0 = none ∧
    partitionsUpTo 0 0 = 1 ∧ ([] : List (List String)).length ≠ 1 :=
  ⟨rfl, rfl, rfl, by decide⟩

/-- Witness for C3 at the alphabet a, b, c with count 3. -/
theorem C3_labelling_partition_count_witness :
    (1 : Nat) ≤ 3 ∧ ∃ ls, everyLabelling ["a", "b", "c"] 3 = some ls ∧
      ls.length = partitionsUpTo 3 3 ∧
      (ls ≠ [] → ls.head? = some (List.replicate 3 ((["a", "b", "c"] : List String).getD 0 ""))) :=
  ⟨by decide, C3_labelling_partition_count ["a", "b", "c"] 3 (by decide)⟩

/-- A production containing a reference to an undeclared rule makes the
reference check throw. -/
theorem hasUndeclared_refErr (names : List String) :
    ∀ p : Production, hasUndeclaredRef names p = true →
      ∃ e, validateRuleReferences names p = .error e := by
  refine FuzzComplete.hasUndeclaredRef.induct names
    (fun p => hasUndeclaredRef names p = true → ∃ e, validateRuleReferences names p = .error e)
    (fun ps => hasUndeclaredRefList names ps = true →
      ∃ e, validateRuleReferencesList names ps = .error e)
    ?_ ?_ ?_ ?_ ?_ ?_ ?_
  · intro v h
    simp [hasUndeclaredRef] at h
  · intro ps ih h
    rw [hasUndeclaredRef] at h
    obtain ⟨e, he⟩ := ih h
    exact ⟨e, by rw [validateRuleReferences]; exact he⟩
  · intro n s e h
    rw [hasUndeclaredRef] at h
    simp at h
    exact ⟨⟨"Rule not declared", s, e⟩, by simp [validateRuleReferences, h]⟩
  · intro op p ih h
    rw [hasUndeclaredRef] at h
    obtain ⟨e, he⟩ := ih h
    exact ⟨e, by rw [validateRuleReferences]; exact he⟩
  · intro cs ih h
    rw [hasUndeclaredRef] at h
    obtain ⟨e, he⟩ := ih h
    exact ⟨e, by rw [validateRuleReferences]; exact he⟩
  · intro h
    simp [hasUndeclaredRefList] at h
  · intro p rest ihp ihrest h
    rw [hasUndeclaredRefList] at h
    rcases hv : validateRuleReferences names p with e | u
    · exact ⟨e, by rw [validateRuleReferencesList, hv]⟩
    · have hp : hasUndeclaredRef names p = false := by
        by_contra hc
        simp only [Bool.not_eq_false] at hc
        obtain ⟨e, he⟩ := ihp hc
        rw [hv] at he
        exact Except.noConfusion he
      rw [hp, Bool.false_or] at h
      obtain ⟨e, he⟩ := ihrest h
      refine ⟨e, ?_⟩
      rw [validateRuleReferencesList, hv]
      exact he

/-- Whenever the spec's leftmost traversal revisits a rule on the path, the
code's termination check throws: the code explores the first alternative of
each choice and every element of each sequence — a superset of the leftmost
edges — with the same path discipline, and the leftmost child is checked
first, so the leftmost loop is found. -/
theorem leftmostLoops_termErr (g : Language) :
    ∀ (r : Rule) (visited : List String), leftmostLoopsRule g r visited = true →
      ∃ e, validateRuleTerminates g r visited = .error e := by
  refine FuzzComplete.leftmostLoopsRule.induct g
    (fun r visited => leftmostLoopsRule g r visited = true →
      ∃ e, validateRuleTerminates g r visited = .error e)
    (fun p visited => leftmostLoopsProd g p visited = true →
      ∃ e, validateProductionTerminates g p visited = .error e)
    ?_ ?_ ?_ ?_ ?_ ?_ ?_ ?_ ?_ ?_ ?_ ?_ ?_
  · intro r visited hmem _
    exact ⟨⟨"Infinite loop detected in leftmost choice", r.nameStart, r.nameEnd⟩,
      by rw [validateRuleTerminates, if_pos hmem]⟩
  · intro r visited hnot hdecl ih h
    rw [leftmostLoopsRule, if_neg hnot, dif_pos hdecl] at h
    obtain ⟨e, he⟩ := ih h
    refine ⟨e, ?_⟩
    rw [validateRuleTerminates, if_neg hnot, dif_pos hdecl]
    exact he
  · intro r visited hnot hnd h
    rw [leftmostLoopsRule, if_neg hnot, dif_neg hnd] at h
    exact Bool.noConfusion h
  · intro visited v h
    rw [leftmostLoopsProd] at h
    exact Bool.noConfusion h
  · intro visited p h
    rw [leftmostLoopsProd] at h
    exact Bool.noConfusion h
  · intro visited p h
    rw [leftmostLoopsProd] at h
    exact Bool.noConfusion h
  · intro visited inner ih h
    rw [leftmostLoopsProd] at h
    obtain ⟨e, he⟩ := ih h
    exact ⟨e, by rw [validateProductionTerminates]; exact he⟩
  · intro visited n os oe r hlook ih h
    rw [leftmostLoopsProd, hlook] at h
    obtain ⟨e, he⟩ := ih h
    exact ⟨e, by rw [validateProductionTerminates, hlook]; exact he⟩
  · intro visited n os oe hlook h
    rw [leftmostLoopsProd, hlook] at h
    exact Bool.noConfusion h
  · intro visited h
    rw [leftmostLoopsProd] at h
    exact Bool.noConfusion h
  · intro visited c tail ih h
    rw [leftmostLoopsProd] at h
    obtain ⟨e, he⟩ := ih h
    exact ⟨e, by rw [validateProductionTerminates]; exact he⟩
  · intro visited h
    rw [leftmostLoopsProd] at h
    exact Bool.noConfusion h
  · intro visited p0 tail ih h
    rw [leftmostLoopsProd] at h
    obtain ⟨e, he⟩ := ih h
    refine ⟨e, ?_⟩
    rw [validateProductionTerminates, validateSequenceTerminates, he]

/-- If any rule's production has an undeclared reference, the reference
stage over the whole rule list throws. -/
theorem refsList_err (names : List String) :
    ∀ (rules : List Rule) (r : Rule), r ∈ rules →
      hasUndeclaredRef names r.production = true →
      ∃ e, validateRefsList names rules = .error e := by
  intro rules
  induction rules with
  | nil => intro r h; simp at h
  | cons r0 rest ih =>
    intro r hmem hbad
    rcases hv : validateRuleReferences names r0.production with e | u
    · exact ⟨e, by rw [validateRefsList, hv]⟩
    · rcases List.mem_cons.mp hmem with rfl | hmem2
      · obtain ⟨e, he⟩ := hasUndeclared_refErr names r.production hbad
        rw [hv] at he
        exact Except.noConfusion he
      · obtain ⟨e, he⟩ := ih r hmem2 hbad
        exact ⟨e, by rw [validateRefsList, hv]; exact he⟩

/-- If any rule's leftmost traversal revisits, the termination stage over
the whole rule list throws. -/
theorem termsList_err (g : Language) :
    ∀ (rules : List Rule) (r : Rule), r ∈ rules →
      leftmostLoopsRule g r [] = true →
      ∃ e, validateTermsList g rules = .error e := by
  intro rules
  induction rules with
  | nil => intro r h; simp at h
  | cons r0 rest ih =>
    intro r hmem hbad
    rcases hv : validateRuleTerminates g r0 [] with e | u
    · exact ⟨e, by rw [validateTermsList, hv]⟩
    · rcases List.mem_cons.mp hmem with rfl | hmem2
      · obtain ⟨e, he⟩ := leftmostLoops_termErr g r [] hbad
        rw [hv] at he
        exact Except.noConfusion he
      · obtain ⟨e, he⟩ := ih r hmem2 hbad
        exact ⟨e, by rw [validateTermsList, hv]; exact he⟩

/-- A grammar whose leftmost traversal revisits a rule fails validation
(with this or an earlier-stage error). -/
theorem validate_err_of_leftmostRevisits (g : Language) (h : g.leftmostRevisits = true) :
    ∃ e, g.validate = .error e := by
  obtain ⟨r, hmem, hlm⟩ := List.any_eq_true.mp h
  rcases hdup : findDuplicate g.rules [] with _ | r'
  case some => exact ⟨⟨"Duplicate rule", r'.nameStart, r'.nameEnd⟩, by simp only [Language.validate, hdup]⟩
  case none =>
    rcases href : validateRefsList g.ruleNames g.rules with e | u
    · exact ⟨e, by simp only [Language.validate, hdup, href]⟩
    · obtain ⟨e, he⟩ := termsList_err g g.rules r hmem hlm
      exact ⟨e, by simp only [Language.validate, hdup, href, he]⟩

/-- A grammar referencing an undeclared rule fails validation (with this or
an earlier-stage error). -/
theorem validate_err_of_referencesUndeclared (g : Language) (h : g.referencesUndeclared = true) :
    ∃ e, g.validate = .error e := by
  obtain ⟨r, hmem, hbad⟩ := List.any_eq_true.mp h
  rcases hdup : findDuplicate g.rules [] with _ | r'
  case some => exact ⟨⟨"Duplicate rule", r'.nameStart, r'.nameEnd⟩, by simp only [Language.validate, hdup]⟩
  case none =>
    obtain ⟨e, he⟩ := refsList_err g.ruleNames g.rules r hmem hbad
    exact ⟨e, by simp only [Language.validate, hdup, he]⟩

/-- Evaluation of the validator on the grammar `loopLang`. -/
theorem loopLang_errMsg : errMsg loopLang.validate = some "Infinite loop detected in leftmost choice" := by
  simp [Language.validate, findDuplicate, validateRefsList, validateRuleReferences,
    validateRuleReferencesList, errMsg, Language.ruleNames, loopLang, validateTermsList,
    validateRuleTerminates, validateProductionTerminates, Language.rulesByNameGet,
    validateSequenceTerminates]

/-- Evaluation of the validator on the grammar `aStartLang`. -/
theorem aStartLang_errMsg : errMsg aStartLang.validate = some "Infinite loop detected in leftmost choice" := by
  simp [Language.validate, findDuplicate, validateRefsList, validateRuleReferences,
    validateRuleReferencesList, errMsg, Language.ruleNames, aStartLang, validateTermsList,
    validateRuleTerminates, validateProductionTerminates, Language.rulesByNameGet,
    validateSequenceTerminates]

/-- Evaluation of the validator on the grammar `mutualLang`. -/
theorem mutualLang_errMsg : errMsg mutualLang.validate = some "Infinite loop detected in leftmost choice" := by
  simp [Language.validate, findDuplicate, validateRefsList, validateRuleReferences,
    validateRuleReferencesList, errMsg, Language.ruleNames, mutualLang, validateTermsList,
    validateRuleTerminates, validateProductionTerminates, Language.rulesByNameGet,
    validateSequenceTerminates]

/-- Evaluation of the validator on the grammar `honkLang`. -/
theorem honkLang_errMsg : errMsg honkLang.validate = some "Rule not declared" := by
  simp [Language.validate, findDuplicate, validateRefsList, validateRuleReferences,
    validateRuleReferencesList, errMsg, Language.ruleNames, honkLang, validateTermsList,
    validateRuleTerminates, validateProductionTerminates, Language.rulesByNameGet,
    validateSequenceTerminates]

/-- Evaluation of the spec-side leftmost predicate on `start = start;`. -/
theorem loopLang_leftmostRevisits : loopLang.leftmostRevisits = true := by
  simp [Language.leftmostRevisits, leftmostLoopsRule, leftmostLoopsProd, loopLang,
    Language.rulesByNameGet, Language.ruleNames]

/-- Evaluation of the spec-side reference predicate on `start = honk;`. -/
theorem honkLang_referencesUndeclared : honkLang.referencesUndeclared = true := by
  simp [Language.referencesUndeclared, hasUndeclaredRef, hasUndeclaredRefList, honkLang,
    Language.ruleNames]

/-- Evaluation of the validator on `start = "a" start | ℇ;`: rejected with
the infinite-loop error (at the rule name's offsets). -/
theorem aStarEpsilonLang_rejected :
    aStarEpsilonLang.validate =
      .error ⟨"Infinite loop detected in leftmost choice", 0, 0⟩ := by
  simp [Language.validate, findDuplicate, validateRefsList, validateRuleReferences,
    validateRuleReferencesList, errMsg, Language.ruleNames, aStarEpsilonLang, validateTermsList,
    validateRuleTerminates, validateProductionTerminates, Language.rulesByNameGet,
    validateSequenceTerminates]

/-- Evaluation of the collecting validation on the two-problem grammar. -/
theorem tryToConstruct_twoProblems :
    tryToConstruct "x" twoProblemRules =
      .failure [⟨"Rule not declared", 10, 14⟩,
                ⟨"Infinite loop detected in leftmost choice", 16, 19⟩] := by
  simp [tryToConstruct, twoProblemRules, duplicateErrors, collectRefErrors,
    collectRefErrorsList, Language.ruleNames, validateRuleTerminates,
    validateProductionTerminates, validateSequenceTerminates, Language.rulesByNameGet]

/-- Evaluation of the collecting validation on a valid grammar. -/
theorem tryToConstruct_abStar :
    tryToConstruct "(a+b)*" abStarLang.rules = .success ⟨"(a+b)*", abStarLang.rules⟩ := by
  simp [tryToConstruct, abStarLang, duplicateErrors, collectRefErrors,
    collectRefErrorsList, Language.ruleNames, validateRuleTerminates,
    validateProductionTerminates, validateSequenceTerminates, Language.rulesByNameGet]

/-- C4: grammar validation rejects every grammar whose leftmost traversal
revisits a rule and every grammar referencing an undeclared rule;
`start = start;` fails with "Infinite loop detected in leftmost choice",
`start = "a" start;` and the three-rule mutual cycle
`foo = "a" bar; bar = "b" baz; baz = "c" foo;` are likewise flagged as
looping, and `start = honk;` fails with "Rule not declared". -/
theorem C4_validator_rejects :
    (∀ g : Language, g.leftmostRevisits = true → ∃ e, g.validate = .error e) ∧
    (∀ g : Language, g.referencesUndeclared = true → ∃ e, g.validate = .error e) ∧
    errMsg loopLang.validate = some "Infinite loop detected in leftmost choice" ∧
    errMsg aStartLang.validate = some "Infinite loop detected in leftmost choice" ∧
    errMsg mutualLang.validate = some "Infinite loop detected in leftmost choice" ∧
    errMsg honkLang.validate = some "Rule not declared" :=
  ⟨validate_err_of_leftmostRevisits, validate_err_of_referencesUndeclared,
   loopLang_errMsg, aStartLang_errMsg, mutualLang_errMsg, honkLang_errMsg⟩

/-- Witness for C4 at the concrete looping and undeclared grammars. -/
theorem C4_validator_rejects_witness :
    loopLang.leftmostRevisits = true ∧ (∃ e, loopLang.validate = .error e) ∧
    honkLang.referencesUndeclared = true ∧ (∃ e, honkLang.validate = .error e) :=
  ⟨loopLang_leftmostRevisits,
   C4_validator_rejects.1 loopLang loopLang_leftmostRevisits,
   honkLang_referencesUndeclared,
   C4_validator_rejects.2.1 honkLang honkLang_referencesUndeclared⟩

/-- C5 counterexample: `start = "a" start | ℇ;` does NOT pass validation —
the constructor throws "Infinite loop detected in leftmost choice", because
the termination check of a sequence visits every element, not only the
first, and the second element recurses into `start` on the path. -/
theorem C5_accepted_counterexample :
    aStarEpsilonLang.validate =
      .error ⟨"Infinite loop detected in leftmost choice", 0, 0⟩ :=
  aStarEpsilonLang_rejected

/-- C5 as amended: the termination check follows only the first alternative
of a choice, but every element of a sequence; hence
`start = "a" start | ℇ;` — whose later sequence element recurses into the
rule even though its leftmost symbol is a literal — is rejected with
"Infinite loop detected in leftmost choice". -/
theorem C5_sequence_checks_every_element :
    errMsg aStarEpsilonLang.validate = some "Infinite loop detected in leftmost choice" ∧
    (∀ (g : Language) (c : Production) (cs : List Production) (v : List String),
      validateProductionTerminates g (.choice (c :: cs)) v =
        validateProductionTerminates g c v) ∧
    (∀ (g : Language) (p : Production) (ps : List Production) (v : List String),
      validateProductionTerminates g (.sequence (p :: ps)) v =
        (match validateProductionTerminates g p v with
         | .error e => .error e
         | .ok () => validateSequenceTerminates g ps v)) := by
  refine ⟨?_, ?_, ?_⟩
  · rw [aStarEpsilonLang_rejected]
    rfl
  · intro g c cs v
    rw [validateProductionTerminates]
  · intro g p ps v
    rw [validateProductionTerminates, validateSequenceTerminates]

/-- C8: validation collects all the errors it can per rule before surfacing
(one invocation reports both the undeclared reference of `start = honk;` and
the loop of `foo = foo;`); the try entry point returns a tagged
success/failure result carrying the list of validation errors (a caught
parse error is carried as a one-element list, a valid grammar as success);
and the throwing entry point raises the first collected error
(`result.error[0]`). -/
theorem C8_validation_collects_errors :
    tryToConstruct "x" twoProblemRules =
      .failure [⟨"Rule not declared", 10, 14⟩,
                ⟨"Infinite loop detected in leftmost choice", 16, 19⟩] ∧
    tryParse (.ok ("x", twoProblemRules)) =
      .failure [⟨"Rule not declared", 10, 14⟩,
                ⟨"Infinite loop detected in leftmost choice", 16, 19⟩] ∧
    parse (.ok ("x", twoProblemRules)) = .error (some ⟨"Rule not declared", 10, 14⟩) ∧
    (∀ e : ValidationError, tryParse (.error e) = .failure [e]) ∧
    (∀ e : ValidationError, parse (.error e) = .error (some e)) ∧
    tryParse (.ok ("(a+b)*", abStarLang.rules)) = .success ⟨"(a+b)*", abStarLang.rules⟩ := by
  refine ⟨tryToConstruct_twoProblems, ?_, ?_, fun e => rfl, fun e => rfl, ?_⟩
  · show tryToConstruct "x" twoProblemRules = _
    exact tryToConstruct_twoProblems
  · show (match tryParse (.ok ("x", twoProblemRules)) with
      | .success v => Except.ok v
      | .failure es => Except.error es.head?) = _
    show (match tryToConstruct "x" twoProblemRules with
      | .success v => Except.ok v
      | .failure es => Except.error es.head?) = _
    rw [tryToConstruct_twoProblems]
    rfl
  · show tryToConstruct "(a+b)*" abStarLang.rules = _
    exact tryToConstruct_abStar

/-- The label-deduplication feature makes the output stream a proper subset
of the classically derivable language: for
`start = identifier; identifier! = "a" | "b";` the complete output stream is
exactly ["a"], yet the sentence "b" is derivable.  (Background for the
fair-enumeration claim: over the classical language that claim cannot hold
for labelled grammars.) -/
theorem labelled_grammar_omits_derivable_sentence :
    generatorOutputs twoLetterLabelledLang 12 = (["a"], true) ∧
    twoLetterLabelledLang.derivesSentence "b" := by
  constructor
  · decide
  · show Derives twoLetterLabelledLang (.choice [.rule "identifier" 0 0]) "b"
    apply Derives.choice (List.mem_singleton.mpr rfl)
    have hfind : twoLetterLabelledLang.findRule "identifier" =
        some ⟨"identifier", .choice [.literal "a", .literal "b"], true, 0, 0⟩ := by
      simp [Language.findRule, twoLetterLabelledLang]
    apply Derives.ruleRef hfind
    exact Derives.choice (by simp) (Derives.literal "b")

end FuzzComplete
